import Mathlib

/-! # The Better Factorial: memoized factorial with overflow detection

A shallow embedding of `src/factorial.cpp`.

* `Output_Type` is an unsigned integer type of `w` bits: its values are natural
  numbers and every arithmetic result is reduced modulo `2 ^ w`.  The driver
  instantiates it with `uint64_t`, that is `w = 64`.
* `Input_Type` is `int`: an integer `n` with `-2^31 ≤ n < 2^31` (`isInt`).
* The function-local `static std::vector< Output_Type > results( 2, 1 )` is the
  cache.  It is threaded through explicitly: `factorial` takes the vector as it
  is before the call and returns the returned value together with the vector as
  it is after the call.
* `size_t` is 64 bits wide.
-/

namespace BetterFactorial

/-- The range of the C++ type `int` (32 bits, two's complement). -/
def isInt (n : Int) : Prop := -2 ^ 31 ≤ n ∧ n < 2 ^ 31

instance (n : Int) : Decidable (isInt n) := by
  unfold isInt; infer_instance

/-- The conversion `( size_t ) Input` of a signed value to the 64-bit unsigned
`size_t`: reduction modulo `2 ^ 64`. -/
def size_t_cast (Input : Int) : Nat := (Input % 2 ^ 64).toNat

/-- The conversion `( Output_Type ) results.size()` to an unsigned type of `w` bits. -/
def output_cast (w : Nat) (size : Nat) : Nat := size % 2 ^ w

/-- The value `results.back()`: the last element of the vector.  The vector is
seeded with two elements and only ever grows, so it is never empty; the default
is never used from a seeded vector. -/
def back (results : List Nat) : Nat := results.getLastD 0

/-- The template function `factorial< Output_Type, Input_Type >( Input )` for an
unsigned `Output_Type` of `w` bits and `Input_Type = int`, lines 55-83.

```
while( ( size_t ) Input >= results.size() ){
    Output_Type new_val = results.back() * ( Output_Type ) results.size();
    if( new_val / results.back() != ( Output_Type ) results.size() ){
        return 0;
    }
    results.push_back( new_val );
}
return Input >= 0 ? results[ Input ] : 0;
```

The first component is the returned value, the second the static vector after
the call. -/
def factorial (w : Nat) (Input : Int) (results : List Nat) : Nat × List Nat :=
  if size_t_cast Input ≥ results.length then
    let new_val := (back results * output_cast w results.length) % 2 ^ w
    if new_val / back results ≠ output_cast w results.length then
      (0, results)
    else
      factorial w Input (results ++ [new_val])
  else
    (if Input ≥ 0 then results.getD Input.toNat 0 else 0, results)
termination_by size_t_cast Input + 1 - results.length
decreasing_by
  simp only [List.length_append, List.length_singleton]
  omega

/-- The states of the static vector that a run can observe: the seed
`results( 2, 1 )`, and the vector left behind by any call `factorial< uint64_t, int >`
with an `int` argument made in an observable state. -/
inductive Reachable : List Nat → Prop
  | seed : Reachable [1, 1]
  | call (results : List Nat) (Input : Int) :
      Reachable results → isInt Input → Reachable (factorial 64 Input results).2

/-- The outcome of `std::stoi( argv[ i ] )` in `main`: one of the two exceptions
that `main` catches, or the parsed `int`. -/
inductive Parsed
  | invalid_argument
  | out_of_range
  | value (input : Int)
  deriving DecidableEq, Repr

/-- The line that one iteration of the loop of `main` prints.  The first three
and `overflow` go to `std::cerr`, `result` goes to `std::cout`; `i` is the
position of the argument on the command line. -/
inductive Message
  | not_an_integer (i : Nat)
  | out_of_int_range (i : Nat)
  | is_negative (i : Nat)
  | overflow (i : Nat) (input : Int)
  | result (input : Int) (result : Nat)
  deriving DecidableEq, Repr

/-- The body of the `for` loop of `main`, lines 90-120, for argument number `i`:
the message printed and the static vector of `factorial< uint64_t, int >`
afterwards. -/
def main_body (i : Nat) (arg : Parsed) (results : List Nat) : Message × List Nat :=
  match arg with
  | Parsed.invalid_argument => (Message.not_an_integer i, results)
  | Parsed.out_of_range => (Message.out_of_int_range i, results)
  | Parsed.value input =>
    if input < 0 then
      (Message.is_negative i, results)
    else
      let r := factorial 64 input results
      if r.1 = 0 then
        (Message.overflow i input, r.2)
      else
        (Message.result input r.1, r.2)

/-- The loop `for( int i = ... ; i < argc ; i++ )` of `main` over the remaining
arguments, starting at argument number `i`. -/
def main_loop (i : Nat) (args : List Parsed) (results : List Nat) :
    List Message × List Nat :=
  match args with
  | [] => ([], results)
  | arg :: rest =>
    let r := main_body i arg results
    let r2 := main_loop (i + 1) rest r.2
    (r.1 :: r2.1, r2.2)

/-- The function `main`: the loop starts at `i = 1` with the static vector in
its seeded state `results( 2, 1 )`.  The result is the list of messages in the
order printed. -/
def main (argv : List Parsed) : List Message := (main_loop 1 argv [1, 1]).1

/-- The value `new_val` of line 71, `results.back() * ( Output_Type ) results.size()`
in unsigned arithmetic of `w` bits, for `last = results.back()` and
`size = ( Output_Type ) results.size()`: the product reduced modulo `2 ^ w`. -/
def new_val (w last size : Nat) : Nat := (last * size) % 2 ^ w

/-- The overflow test of line 73,
`new_val / results.back() != ( Output_Type ) results.size()`, with the
truncating division of unsigned integers.  `factorial_eq_check` shows that it is
the test `factorial` performs. -/
def overflow_check (w last size : Nat) : Bool := new_val w last size / last != size

/-- The function `factorial` of lines 55-83 once more, with the undefined
behaviours of the C++ made explicit: `results.back()` on an empty vector, a zero
divisor in `new_val / results.back()`, and an index `results[ Input ]` outside
the vector each give `none`.  Otherwise the result is the returned value with
the static vector after the call, as for `factorial`. -/
def factorial_checked (w : Nat) (Input : Int) (results : List Nat) :
    Option (Nat × List Nat) :=
  if size_t_cast Input ≥ results.length then
    if results.isEmpty then
      none
    else if back results = 0 then
      none
    else if overflow_check w (back results) (output_cast w results.length) = true then
      some (0, results)
    else
      factorial_checked w Input
        (results ++ [new_val w (back results) (output_cast w results.length)])
  else if Input ≥ 0 then
    if Input.toNat < results.length then
      some (results.getD Input.toNat 0, results)
    else
      none
  else
    some (0, results)
termination_by size_t_cast Input + 1 - results.length
decreasing_by
  simp only [List.length_append, List.length_singleton]
  omega

/-! ## One iteration of the extension loop -/

theorem factorial_done (w : Nat) (Input : Int) (results : List Nat)
    (h : size_t_cast Input < results.length) :
    factorial w Input results
      = (if Input ≥ 0 then results.getD Input.toNat 0 else 0, results) := by
  rw [factorial, if_neg (by omega)]

theorem factorial_overflow (w : Nat) (Input : Int) (results : List Nat)
    (h : results.length ≤ size_t_cast Input)
    (hc : (back results * output_cast w results.length) % 2 ^ w / back results
            ≠ output_cast w results.length) :
    factorial w Input results = (0, results) := by
  rw [factorial, if_pos h]
  simp only [if_pos hc]

theorem factorial_push (w : Nat) (Input : Int) (results : List Nat)
    (h : results.length ≤ size_t_cast Input)
    (hc : (back results * output_cast w results.length) % 2 ^ w / back results
            = output_cast w results.length) :
    factorial w Input results
      = factorial w Input
          (results ++ [(back results * output_cast w results.length) % 2 ^ w]) := by
  rw [factorial, if_pos h]
  simp only [hc, ne_eq, not_true_eq_false, if_false]

/-- The vector before a call is a prefix of the vector after it, for every
output width, every input and every vector. -/
theorem factorial_prefix (w : Nat) (Input : Int) :
    ∀ (m : Nat) (results : List Nat), size_t_cast Input + 1 - results.length = m →
      results <+: (factorial w Input results).2 := by
  intro m
  induction m using Nat.strong_induction_on with
  | _ m ih =>
    intro results hm
    by_cases h : results.length ≤ size_t_cast Input
    · by_cases hc : (back results * output_cast w results.length) % 2 ^ w / back results
            = output_cast w results.length
      · rw [factorial_push w Input results h hc]
        refine (List.prefix_append results _).trans (ih _ ?_ _ rfl)
        simp only [List.length_append, List.length_singleton]
        omega
      · rw [factorial_overflow w Input results h hc]
    · rw [factorial_done w Input results (by omega)]

/-! ## The vector of the first `k` factorials -/

theorem table_length (k : Nat) : ((List.range k).map Nat.factorial).length = k := by
  simp

theorem table_back (k : Nat) :
    back ((List.range (k + 1)).map Nat.factorial) = Nat.factorial k := by
  simp [back, List.range_succ]

theorem table_snoc (k : Nat) :
    (List.range k).map Nat.factorial ++ [Nat.factorial k]
      = (List.range (k + 1)).map Nat.factorial := by
  simp [List.range_succ]

theorem table_getD (k i : Nat) (h : i < k) :
    ((List.range k).map Nat.factorial).getD i 0 = Nat.factorial i := by
  simp [List.getD, List.getElem?_range h]

theorem factorial_lt_of_le_20 (k : Nat) (h : k ≤ 20) : Nat.factorial k < 2 ^ 64 :=
  lt_of_le_of_lt (Nat.factorial_le h) (by decide)

theorem size_t_cast_of_nonneg (n : Int) (h0 : 0 ≤ n) (h : isInt n) :
    size_t_cast n = n.toNat := by
  unfold size_t_cast
  rw [Int.emod_eq_of_lt h0 (lt_trans h.2 (by norm_num))]

theorem size_t_cast_of_neg (n : Int) (h0 : n < 0) (h : isInt n) :
    2 ^ 64 - 2 ^ 31 ≤ size_t_cast n := by
  unfold size_t_cast
  have h1 := h.1
  have e : n % 2 ^ 64 = n + 2 ^ 64 := by
    rw [← Int.add_emod_self]
    exact Int.emod_eq_of_lt (by omega) (by omega)
  rw [e]
  omega

/-- One successful extension step on the vector of the first `k + 1` factorials,
while the next value `(k + 1)!` still fits 64 bits. -/
theorem factorial_table_push (n : Int) (k : Nat) (hk : k + 1 ≤ 20)
    (h : k + 1 ≤ size_t_cast n) :
    factorial 64 n ((List.range (k + 1)).map Nat.factorial)
      = factorial 64 n ((List.range (k + 2)).map Nat.factorial) := by
  have hlt : Nat.factorial (k + 1) < 2 ^ 64 := factorial_lt_of_le_20 _ hk
  have hmul : Nat.factorial k * (k + 1) = Nat.factorial (k + 1) := by
    rw [Nat.factorial_succ, Nat.mul_comm]
  have hcast : output_cast 64 (k + 1) = k + 1 := by
    unfold output_cast
    exact Nat.mod_eq_of_lt (by omega)
  have hnew : (back ((List.range (k + 1)).map Nat.factorial)
      * output_cast 64 ((List.range (k + 1)).map Nat.factorial).length) % 2 ^ 64
        = Nat.factorial (k + 1) := by
    rw [table_back, table_length, hcast, hmul, Nat.mod_eq_of_lt hlt]
  rw [factorial_push 64 n _ (by rw [table_length]; exact h), hnew, table_snoc]
  rw [hnew, table_back, table_length, hcast, ← hmul]
  exact Nat.mul_div_cancel_left _ (Nat.factorial_pos k)

/-- The extension step on the vector of the first 21 factorials fails the check:
`20! * 21` wraps around. -/
theorem factorial_table_overflow (n : Int) (h : 21 ≤ size_t_cast n) :
    factorial 64 n ((List.range 21).map Nat.factorial)
      = (0, (List.range 21).map Nat.factorial) := by
  apply factorial_overflow 64 n _ (by rw [table_length]; exact h)
  rw [table_back, table_length]
  decide

/-- From the first `k + 1` factorials the loop extends the vector up to the
first `j + 1` factorials, as long as `j ≤ 20` and `j` does not pass the index
asked for. -/
theorem factorial_table_extend (n : Int) (j : Nat) (hj : j ≤ 20)
    (h : j ≤ size_t_cast n) :
    ∀ (d k : Nat), k + d = j →
      factorial 64 n ((List.range (k + 1)).map Nat.factorial)
        = factorial 64 n ((List.range (j + 1)).map Nat.factorial) := by
  intro d
  induction d with
  | zero =>
    intro k hk
    have e : k = j := by omega
    rw [e]
  | succ d ih =>
    intro k hk
    rw [factorial_table_push n k (by omega) (by omega)]
    exact ih (k + 1) (by omega)

/-- What a call does on the vector of the first `k` factorials, `2 ≤ k ≤ 21`,
for an `int` argument. -/
theorem factorial_table (n : Int) (hn : isInt n) (k : Nat) (h2 : 2 ≤ k) (h21 : k ≤ 21) :
    factorial 64 n ((List.range k).map Nat.factorial)
      = if 0 ≤ n ∧ n ≤ 20 then
          (Nat.factorial n.toNat, (List.range (max k (n.toNat + 1))).map Nat.factorial)
        else
          (0, (List.range 21).map Nat.factorial) := by
  obtain ⟨k, rfl⟩ : ∃ k', k = k' + 1 := ⟨k - 1, by omega⟩
  by_cases hr : 0 ≤ n ∧ n ≤ 20
  · rw [if_pos hr]
    have hc : size_t_cast n = n.toNat := size_t_cast_of_nonneg n hr.1 hn
    by_cases hlt : n.toNat < k + 1
    · rw [factorial_done 64 n _ (by rw [table_length, hc]; exact hlt), if_pos hr.1,
        table_getD _ _ hlt, max_eq_left (by omega)]
    · rw [factorial_table_extend n n.toNat (by omega) (by omega) (n.toNat - k) k (by omega),
        factorial_done 64 n _ (by rw [table_length, hc]; omega), if_pos hr.1,
        table_getD _ _ (by omega), max_eq_right (by omega)]
  · rw [if_neg hr]
    have hc : 21 ≤ size_t_cast n := by
      by_cases h0 : 0 ≤ n
      · rw [size_t_cast_of_nonneg n h0 hn]
        omega
      · exact le_trans (by norm_num) (size_t_cast_of_neg n (by omega) hn)
    rw [factorial_table_extend n 20 (by omega) (by omega) (20 - k) k (by omega)]
    exact factorial_table_overflow n hc

/-- Every observable state of the static vector is the vector of the first `k`
factorials for some `2 ≤ k ≤ 21`. -/
theorem reachable_table (results : List Nat) (h : Reachable results) :
    ∃ k, 2 ≤ k ∧ k ≤ 21 ∧ results = (List.range k).map Nat.factorial := by
  induction h with
  | seed => exact ⟨2, by omega, by omega, by decide⟩
  | call results n _ hn ih =>
    obtain ⟨k, h2, h21, rfl⟩ := ih
    rw [factorial_table n hn k h2 h21]
    by_cases hr : 0 ≤ n ∧ n ≤ 20
    · rw [if_pos hr]
      exact ⟨max k (n.toNat + 1), by omega, by omega, rfl⟩
    · rw [if_neg hr]
      exact ⟨21, by omega, by omega, rfl⟩

/-- The vector of the first `k` factorials, `2 ≤ k ≤ 21`, is observable. -/
theorem table_reachable (k : Nat) (h2 : 2 ≤ k) (h21 : k ≤ 21) :
    Reachable ((List.range k).map Nat.factorial) := by
  have h := Reachable.call [1, 1] ((k : Int) - 1) Reachable.seed
    (by unfold isInt; omega)
  have e : ([1, 1] : List Nat) = (List.range 2).map Nat.factorial := by decide
  rw [e, factorial_table _ (by unfold isInt; omega) 2 (by omega) (by omega),
    if_pos (by omega)] at h
  have e2 : max 2 (((k : Int) - 1).toNat + 1) = k := by omega
  rw [e2] at h
  exact h

/-! ## Properties of `factorial< uint64_t, int >` -/

/-- C1: with a 64-bit unsigned output and an `int` input, for every `0 ≤ n ≤ 20`
and every state of the static vector reachable from the seed `[1, 1]` by earlier
calls, `factorial(n)` returns exactly `n!`, which is not the error value zero. -/
theorem C1_factorial_exact (results : List Nat) (hr : Reachable results)
    (n : Int) (h0 : 0 ≤ n) (h20 : n ≤ 20) :
    (factorial 64 n results).1 = Nat.factorial n.toNat
      ∧ (factorial 64 n results).1 ≠ 0 := by
  obtain ⟨k, h2, h21, rfl⟩ := reachable_table results hr
  have hn : isInt n := by unfold isInt; omega
  rw [factorial_table n hn k h2 h21, if_pos ⟨h0, h20⟩]
  exact ⟨rfl, Nat.factorial_ne_zero _⟩

theorem C1_factorial_exact_witness :
    Reachable (factorial 64 (-7) [1, 1]).2 ∧ (0 : Int) ≤ 13 ∧ (13 : Int) ≤ 20
      ∧ (factorial 64 13 (factorial 64 (-7) [1, 1]).2).1 = Nat.factorial (13 : Int).toNat
      ∧ (factorial 64 13 (factorial 64 (-7) [1, 1]).2).1 ≠ 0 :=
  ⟨Reachable.call _ _ Reachable.seed (by decide), by decide, by decide,
    C1_factorial_exact _ (Reachable.call _ _ Reachable.seed (by decide)) 13
      (by decide) (by decide)⟩

/-- C2: with a 64-bit unsigned output, for every non-negative `int` `n` and every
reachable state of the static vector, `factorial(n)` returns the overflow value 0
if and only if `n!` exceeds `2^64 - 1`, which is the case if and only if
`n ≥ 21`; `factorial(21)` returns the overflow value and `factorial(20)` returns
2432902008176640000. -/
theorem C2_overflow_iff (results : List Nat) (hr : Reachable results)
    (n : Int) (hn : isInt n) (h0 : 0 ≤ n) :
    ((factorial 64 n results).1 = 0 ↔ Nat.factorial n.toNat > 2 ^ 64 - 1)
      ∧ (Nat.factorial n.toNat > 2 ^ 64 - 1 ↔ 21 ≤ n)
      ∧ (factorial 64 21 results).1 = 0
      ∧ (factorial 64 20 results).1 = 2432902008176640000 := by
  obtain ⟨k, h2, h21, rfl⟩ := reachable_table results hr
  have hbig : Nat.factorial n.toNat > 2 ^ 64 - 1 ↔ 21 ≤ n := by
    constructor
    · intro h
      by_contra hlt
      have := factorial_lt_of_le_20 n.toNat (by omega)
      omega
    · intro h
      exact lt_of_lt_of_le (by decide) (Nat.factorial_le (show 21 ≤ n.toNat by omega))
  refine ⟨?_, hbig, ?_, ?_⟩
  · rw [hbig, factorial_table n hn k h2 h21]
    by_cases h : 0 ≤ n ∧ n ≤ 20
    · rw [if_pos h]
      have := Nat.factorial_ne_zero n.toNat
      constructor
      · intro e; exact absurd e this
      · intro e; omega
    · rw [if_neg h]
      constructor
      · intro _; omega
      · intro _; rfl
  · rw [factorial_table 21 (by decide) k h2 h21, if_neg (by decide)]
  · rw [factorial_table 20 (by decide) k h2 h21, if_pos (by decide)]
    exact (by decide : Nat.factorial (Int.toNat 20) = 2432902008176640000)

theorem C2_overflow_iff_witness :
    Reachable [1, 1] ∧ isInt 25 ∧ (0 : Int) ≤ 25
      ∧ ((factorial 64 25 [1, 1]).1 = 0 ↔ Nat.factorial (25 : Int).toNat > 2 ^ 64 - 1)
      ∧ (Nat.factorial (25 : Int).toNat > 2 ^ 64 - 1 ↔ (21 : Int) ≤ 25)
      ∧ (factorial 64 21 [1, 1]).1 = 0
      ∧ (factorial 64 20 [1, 1]).1 = 2432902008176640000 :=
  ⟨Reachable.seed, by decide, by decide,
    C2_overflow_iff [1, 1] Reachable.seed 25 (by decide) (by decide)⟩

/-- C3, evaluated on the code: called with `-1` on the seeded vector `[1, 1]`,
`factorial` enters the extension loop (the cast `( size_t ) Input` of a negative
`int` is at least `2^64 - 2^31`) and leaves the vector extended to the 21
entries `0!`, ..., `20!`; the vector is not left unchanged. -/
theorem C3_negative_input_extends_cache :
    (factorial 64 (-1) [1, 1]).2
        = [1, 1, 2, 6, 24, 120, 720, 5040, 40320, 362880, 3628800, 39916800,
            479001600, 6227020800, 87178291200, 1307674368000, 20922789888000,
            355687428096000, 6402373705728000, 121645100408832000,
            2432902008176640000]
      ∧ (factorial 64 (-1) [1, 1]).2 ≠ [1, 1] := by
  have e : ([1, 1] : List Nat) = (List.range 2).map Nat.factorial := by decide
  have h : (factorial 64 (-1) [1, 1]).2 = (List.range 21).map Nat.factorial := by
    rw [e, factorial_table (-1) (by decide) 2 (by omega) (by omega), if_neg (by decide)]
  rw [h]
  constructor <;> decide

/-- C4: for every negative `int` `n` and every reachable state of the static
vector, `factorial(n)` returns the failure value 0. -/
theorem C4_negative_returns_zero (results : List Nat) (hr : Reachable results)
    (n : Int) (hn : isInt n) (hneg : n < 0) :
    (factorial 64 n results).1 = 0 := by
  obtain ⟨k, h2, h21, rfl⟩ := reachable_table results hr
  rw [factorial_table n hn k h2 h21, if_neg (by omega)]

theorem C4_negative_returns_zero_witness :
    Reachable (factorial 64 5 [1, 1]).2 ∧ isInt (-20) ∧ (-20 : Int) < 0
      ∧ (factorial 64 (-20) (factorial 64 5 [1, 1]).2).1 = 0 :=
  ⟨Reachable.call _ _ Reachable.seed (by decide), by decide, by decide,
    C4_negative_returns_zero _ (Reachable.call _ _ Reachable.seed (by decide)) (-20)
      (by decide) (by decide)⟩

/-- C5: for every `int` `n` and every reachable state of the static vector,
two calls `factorial(n)` in a row return the same value, and the second call
leaves the vector exactly as the first call left it. -/
theorem C5_idempotent (results : List Nat) (hr : Reachable results)
    (n : Int) (hn : isInt n) :
    (factorial 64 n (factorial 64 n results).2).1 = (factorial 64 n results).1
      ∧ (factorial 64 n (factorial 64 n results).2).2 = (factorial 64 n results).2
      ∧ (factorial 64 n (factorial 64 n results).2).2.length
          = (factorial 64 n results).2.length := by
  obtain ⟨k, h2, h21, rfl⟩ := reachable_table results hr
  rw [factorial_table n hn k h2 h21]
  by_cases h : 0 ≤ n ∧ n ≤ 20
  · simp only [if_pos h]
    rw [factorial_table n hn _ (by omega) (by omega), if_pos h,
      max_eq_left (le_max_right _ _)]
    exact ⟨rfl, rfl, rfl⟩
  · simp only [if_neg h]
    rw [factorial_table n hn 21 (by omega) (by omega), if_neg h]
    exact ⟨rfl, rfl, rfl⟩

theorem C5_idempotent_witness :
    Reachable [1, 1] ∧ isInt 30
      ∧ (factorial 64 30 (factorial 64 30 [1, 1]).2).1 = (factorial 64 30 [1, 1]).1
      ∧ (factorial 64 30 (factorial 64 30 [1, 1]).2).2 = (factorial 64 30 [1, 1]).2
      ∧ (factorial 64 30 (factorial 64 30 [1, 1]).2).2.length
          = (factorial 64 30 [1, 1]).2.length :=
  ⟨Reachable.seed, by decide, C5_idempotent [1, 1] Reachable.seed 30 (by decide)⟩

/-- C6: for all `int`s `0 ≤ m ≤ n`, starting from the seeded vector `[1, 1]`,
`factorial(m)` followed by `factorial(n)` gives the same value for
`factorial(n)` and the same final vector as `factorial(n)` alone. -/
theorem C6_prefix_reuse (m n : Int) (hn : isInt n) (h0 : 0 ≤ m) (hmn : m ≤ n) :
    (factorial 64 n (factorial 64 m [1, 1]).2).1 = (factorial 64 n [1, 1]).1
      ∧ (factorial 64 n (factorial 64 m [1, 1]).2).2 = (factorial 64 n [1, 1]).2 := by
  have e : ([1, 1] : List Nat) = (List.range 2).map Nat.factorial := by decide
  have hm : isInt m := by unfold isInt at *; omega
  rw [e, factorial_table m hm 2 (by omega) (by omega),
    factorial_table n hn 2 (by omega) (by omega)]
  by_cases h : 0 ≤ n ∧ n ≤ 20
  · simp only [if_pos h, if_pos (show 0 ≤ m ∧ m ≤ 20 by omega)]
    rw [factorial_table n hn _ (by omega) (by omega), if_pos h]
    have e2 : max (max 2 (m.toNat + 1)) (n.toNat + 1) = max 2 (n.toNat + 1) := by omega
    rw [e2]
    exact ⟨rfl, rfl⟩
  · simp only [if_neg h]
    by_cases h2 : 0 ≤ m ∧ m ≤ 20
    · simp only [if_pos h2]
      rw [factorial_table n hn _ (by omega) (by omega), if_neg h]
      exact ⟨rfl, rfl⟩
    · simp only [if_neg h2]
      rw [factorial_table n hn _ (by omega) (by omega), if_neg h]
      exact ⟨rfl, rfl⟩

theorem C6_prefix_reuse_witness :
    isInt 10 ∧ (0 : Int) ≤ 5 ∧ (5 : Int) ≤ 10
      ∧ (factorial 64 10 (factorial 64 5 [1, 1]).2).1 = (factorial 64 10 [1, 1]).1
      ∧ (factorial 64 10 (factorial 64 5 [1, 1]).2).2 = (factorial 64 10 [1, 1]).2 :=
  ⟨by decide, by decide, by decide,
    C6_prefix_reuse 5 10 (by decide) (by decide) (by decide)⟩

/-- C7: for every reachable state of the static vector and every `int` `n ≥ 21`,
the call `factorial(n)` returns the overflow value 0, keeps the vector before
the call as a prefix of the vector after it, leaves exactly the 21 entries
`0!`, ..., `20!` (the wrapped product `21! mod 2^64` is not among them), and
afterwards `factorial(20)` returns 2432902008176640000 and `factorial(k)`
returns `k!` for every `0 ≤ k ≤ 20`. -/
theorem C7_overflow_keeps_cache (results : List Nat) (hr : Reachable results)
    (n : Int) (hn : isInt n) (h21 : 21 ≤ n) :
    (factorial 64 n results).1 = 0
      ∧ results <+: (factorial 64 n results).2
      ∧ (factorial 64 n results).2 = (List.range 21).map Nat.factorial
      ∧ Nat.factorial 21 % 2 ^ 64 ∉ (factorial 64 n results).2
      ∧ (factorial 64 20 (factorial 64 n results).2).1 = 2432902008176640000
      ∧ ∀ k : Int, 0 ≤ k → k ≤ 20 →
          (factorial 64 k (factorial 64 n results).2).1 = Nat.factorial k.toNat := by
  have hpre := factorial_prefix 64 n _ results rfl
  obtain ⟨k, h2, hk21, rfl⟩ := reachable_table results hr
  rw [factorial_table n hn k h2 hk21, if_neg (by omega)] at hpre ⊢
  refine ⟨rfl, hpre, rfl, by decide, ?_, ?_⟩
  · show (factorial 64 20 ((List.range 21).map Nat.factorial)).1 = _
    rw [factorial_table 20 (by decide) 21 (by omega) (by omega), if_pos (by decide)]
    exact (by decide : Nat.factorial (Int.toNat 20) = 2432902008176640000)
  · intro j hj0 hj20
    show (factorial 64 j ((List.range 21).map Nat.factorial)).1 = _
    rw [factorial_table j (by unfold isInt; omega) 21 (by omega) (by omega),
      if_pos ⟨hj0, hj20⟩]

theorem C7_overflow_keeps_cache_witness :
    Reachable (factorial 64 7 [1, 1]).2 ∧ isInt 21 ∧ (21 : Int) ≤ 21
      ∧ (factorial 64 21 (factorial 64 7 [1, 1]).2).1 = 0
      ∧ (factorial 64 7 [1, 1]).2 <+: (factorial 64 21 (factorial 64 7 [1, 1]).2).2
      ∧ (factorial 64 21 (factorial 64 7 [1, 1]).2).2 = (List.range 21).map Nat.factorial
      ∧ Nat.factorial 21 % 2 ^ 64 ∉ (factorial 64 21 (factorial 64 7 [1, 1]).2).2
      ∧ (factorial 64 20 (factorial 64 21 (factorial 64 7 [1, 1]).2).2).1
          = 2432902008176640000
      ∧ ∀ k : Int, 0 ≤ k → k ≤ 20 →
          (factorial 64 k (factorial 64 21 (factorial 64 7 [1, 1]).2).2).1
            = Nat.factorial k.toNat :=
  ⟨Reachable.call _ _ Reachable.seed (by decide), by decide, by decide,
    C7_overflow_keeps_cache _ (Reachable.call _ _ Reachable.seed (by decide)) 21
      (by decide) (by decide)⟩

/-- C8: in every state of the static vector reachable from the seed `[1, 1]`,
`results[0] = results[1] = 1` and, for every index `n ≥ 2` present in the
vector, `results[n] = results[n-1] * n` as exact natural numbers and
`results[n] = n!`. -/
theorem C8_cache_invariant (results : List Nat) (hr : Reachable results) :
    results[0]? = some 1 ∧ results[1]? = some 1
      ∧ ∀ n : Nat, 2 ≤ n → n < results.length →
          results.getD n 0 = results.getD (n - 1) 0 * n
            ∧ results.getD n 0 = Nat.factorial n := by
  obtain ⟨k, h2, h21, rfl⟩ := reachable_table results hr
  refine ⟨?_, ?_, ?_⟩
  · rw [List.getElem?_map, List.getElem?_range (by omega)]
    rfl
  · rw [List.getElem?_map, List.getElem?_range (by omega)]
    rfl
  · intro n hn2 hlt
    rw [table_length] at hlt
    rw [table_getD k n hlt, table_getD k (n - 1) (by omega)]
    obtain ⟨j, rfl⟩ : ∃ j, n = j + 1 := ⟨n - 1, by omega⟩
    exact ⟨by rw [Nat.factorial_succ, Nat.mul_comm]; rfl, rfl⟩

theorem C8_cache_invariant_witness :
    Reachable (factorial 64 6 [1, 1]).2
      ∧ (factorial 64 6 [1, 1]).2[0]? = some 1 ∧ (factorial 64 6 [1, 1]).2[1]? = some 1
      ∧ ∀ n : Nat, 2 ≤ n → n < (factorial 64 6 [1, 1]).2.length →
          (factorial 64 6 [1, 1]).2.getD n 0 = (factorial 64 6 [1, 1]).2.getD (n - 1) 0 * n
            ∧ (factorial 64 6 [1, 1]).2.getD n 0 = Nat.factorial n :=
  ⟨Reachable.call _ _ Reachable.seed (by decide),
    C8_cache_invariant _ (Reachable.call _ _ Reachable.seed (by decide))⟩

/-- C9: for every output width, every input and every state of the static
vector, the vector before a `factorial` call is a prefix of the vector after
it: its length does not decrease and every entry present before the call is
found at the same index with the same value afterwards. -/
theorem C9_append_only (w : Nat) (n : Int) (results : List Nat) :
    results <+: (factorial w n results).2
      ∧ results.length ≤ (factorial w n results).2.length
      ∧ ∀ i : Nat, i < results.length → (factorial w n results).2[i]? = results[i]? := by
  have h := factorial_prefix w n _ results rfl
  refine ⟨h, h.length_le, ?_⟩
  intro i hi
  obtain ⟨t, ht⟩ := h
  rw [← ht, List.getElem?_append_left hi]

/-! ## The driver -/

/-- One iteration of the loop of `main` on a parsed `int`, with the static
vector holding the first `k` factorials. -/
theorem main_body_table (i : Nat) (n : Int) (hn : isInt n) (k : Nat)
    (h2 : 2 ≤ k) (h21 : k ≤ 21) :
    main_body i (Parsed.value n) ((List.range k).map Nat.factorial)
      = if n < 0 then
          (Message.is_negative i, (List.range k).map Nat.factorial)
        else if n ≤ 20 then
          (Message.result n (Nat.factorial n.toNat),
            (List.range (max k (n.toNat + 1))).map Nat.factorial)
        else
          (Message.overflow i n, (List.range 21).map Nat.factorial) := by
  unfold main_body
  by_cases hneg : n < 0
  · simp only [if_pos hneg]
  · simp only [if_neg hneg]
    rw [factorial_table n hn k h2 h21]
    by_cases h20 : n ≤ 20
    · simp only [if_pos (show 0 ≤ n ∧ n ≤ 20 from ⟨by omega, h20⟩), if_pos h20,
        if_neg (Nat.factorial_ne_zero _)]
    · simp only [if_neg (show ¬ (0 ≤ n ∧ n ≤ 20) by omega), if_neg h20, if_true]

/-- The messages of the loop of `main` over parsed `int`s, from any argument
number and with the static vector holding the first `k` factorials. -/
theorem main_loop_table (ns : List Int) :
    ∀ (i k : Nat), (∀ n ∈ ns, isInt n) → 2 ≤ k → k ≤ 21 →
      (main_loop i (ns.map Parsed.value) ((List.range k).map Nat.factorial)).1
        = List.zipWith
            (fun j n => if n < 0 then Message.is_negative j
              else if n ≤ 20 then Message.result n (Nat.factorial n.toNat)
              else Message.overflow j n)
            (List.range' i ns.length) ns := by
  induction ns with
  | nil => intro i k _ _ _; rfl
  | cons n rest ih =>
    intro i k hns h2 h21
    have hn : isInt n := hns n (List.mem_cons_self _ _)
    have hrest : ∀ m ∈ rest, isInt m := fun m hm => hns m (List.mem_cons_of_mem _ hm)
    simp only [List.map_cons, main_loop, List.length_cons, List.range'_succ,
      List.zipWith_cons_cons]
    rw [main_body_table i n hn k h2 h21]
    by_cases hneg : n < 0
    · simp only [if_pos hneg]
      rw [ih (i + 1) k hrest h2 h21]
    · by_cases h20 : n ≤ 20
      · simp only [if_neg hneg, if_pos h20]
        rw [ih (i + 1) _ hrest (by omega) (by omega)]
      · simp only [if_neg hneg, if_neg h20]
        rw [ih (i + 1) 21 hrest (by omega) (by omega)]

/-- C10: for every sequence of parsed `int` arguments processed in order by the
loop of `main` from the seeded vector, the message for the argument at position
`j` with value `n` depends on `j` and `n` alone: negative for `n < 0`, success
with the value `n!` for `0 ≤ n ≤ 20`, overflow for `n ≥ 21`; and on a negative
argument the loop body does not call `factorial`, so the static vector is left
as it is whatever its state. -/
theorem C10_main_outcome (ns : List Int) (hns : ∀ n ∈ ns, isInt n) :
    main (ns.map Parsed.value)
        = List.zipWith
            (fun j n => if n < 0 then Message.is_negative j
              else if n ≤ 20 then Message.result n (Nat.factorial n.toNat)
              else Message.overflow j n)
            (List.range' 1 ns.length) ns
      ∧ ∀ (i : Nat) (n : Int) (results : List Nat), n < 0 →
          main_body i (Parsed.value n) results = (Message.is_negative i, results) := by
  constructor
  · have e : ([1, 1] : List Nat) = (List.range 2).map Nat.factorial := by decide
    unfold main
    rw [e]
    exact main_loop_table ns 1 2 hns (by omega) (by omega)
  · intro i n results hneg
    unfold main_body
    simp only [if_pos hneg]

theorem C10_main_outcome_witness :
    (∀ n ∈ ([-20, -1, 0, 1, 2, 3, 4, 5, 6, 7, 8, 13, 19, 20, 21] : List Int), isInt n)
      ∧ main (([-20, -1, 0, 1, 2, 3, 4, 5, 6, 7, 8, 13, 19, 20, 21] : List Int).map
            Parsed.value)
          = [Message.is_negative 1, Message.is_negative 2, Message.result 0 1,
              Message.result 1 1, Message.result 2 2, Message.result 3 6,
              Message.result 4 24, Message.result 5 120, Message.result 6 720,
              Message.result 7 5040, Message.result 8 40320,
              Message.result 13 6227020800, Message.result 19 121645100408832000,
              Message.result 20 2432902008176640000, Message.overflow 15 21] :=
  ⟨by decide,
    (C10_main_outcome [-20, -1, 0, 1, 2, 3, 4, 5, 6, 7, 8, 13, 19, 20, 21]
      (by decide)).1.trans (by decide)⟩

/-! ## The overflow test -/

/-- The function `factorial` unfolded once, written with `overflow_check` and
`new_val`: they are the test and the product of the loop body. -/
theorem factorial_eq_check (w : Nat) (Input : Int) (results : List Nat) :
    factorial w Input results
      = if size_t_cast Input ≥ results.length then
          if overflow_check w (back results) (output_cast w results.length) = true then
            (0, results)
          else
            factorial w Input
              (results ++ [new_val w (back results) (output_cast w results.length)])
        else
          (if Input ≥ 0 then results.getD Input.toNat 0 else 0, results) := by
  rw [factorial]
  simp only [overflow_check, new_val, bne_iff_ne, ne_eq, ite_not]

/-- With a non-zero first factor, the test fails exactly when the exact product
does not fit `w` bits. -/
theorem overflow_check_iff (w a b : Nat) (ha : 1 ≤ a) :
    overflow_check w a b = true ↔ 2 ^ w ≤ a * b := by
  unfold overflow_check new_val
  rw [bne_iff_ne]
  constructor
  · intro h
    by_contra hlt
    apply h
    rw [Nat.mod_eq_of_lt (by omega)]
    exact Nat.mul_div_cancel_left b (by omega)
  · intro h
    have hp : a * b % 2 ^ w < 2 ^ w := Nat.mod_lt _ (Nat.pos_pow_of_pos w (by omega))
    have hlt : a * b % 2 ^ w / a < b := by
      rw [Nat.div_lt_iff_lt_mul (by omega), Nat.mul_comm b a]
      omega
    omega

/-- C11: for every bit width `w ≥ 1` and all `a`, `b` with `1 ≤ a < 2^w` and
`0 ≤ b < 2^w`, with `p = (a * b) mod 2^w` the test `p / a != b` (truncating
division) is true if and only if `a * b ≥ 2^w`: it reports overflow exactly when
the exact product is not representable, without false positives or false
negatives. -/
theorem C11_overflow_check_exact (w a b : Nat) (_hw : 1 ≤ w) (ha1 : 1 ≤ a)
    (_ha : a < 2 ^ w) (_hb : b < 2 ^ w) :
    (overflow_check w a b = true ↔ 2 ^ w ≤ a * b)
      ∧ (overflow_check w a b = false ↔ a * b < 2 ^ w)
      ∧ (a * b < 2 ^ w → new_val w a b = a * b) := by
  have h := overflow_check_iff w a b ha1
  refine ⟨h, ?_, ?_⟩
  · rw [← Bool.not_eq_true, h]
    omega
  · intro hlt
    exact Nat.mod_eq_of_lt hlt

theorem C11_overflow_check_exact_witness :
    1 ≤ 64 ∧ 1 ≤ 2432902008176640000 ∧ 2432902008176640000 < 2 ^ 64 ∧ 21 < 2 ^ 64
      ∧ (overflow_check 64 2432902008176640000 21 = true
          ↔ 2 ^ 64 ≤ 2432902008176640000 * 21)
      ∧ (overflow_check 64 2432902008176640000 21 = false
          ↔ 2432902008176640000 * 21 < 2 ^ 64)
      ∧ (2432902008176640000 * 21 < 2 ^ 64
          → new_val 64 2432902008176640000 21 = 2432902008176640000 * 21) :=
  ⟨by decide, by decide, by decide, by decide,
    C11_overflow_check_exact 64 2432902008176640000 21 (by decide) (by decide)
      (by decide) (by decide)⟩

/-! ## How a call ends -/

/-- A call ends in one of two ways: through the final `return`, and then the
loop condition is false on the vector left behind; or through the `return 0` of
the loop body, and then the loop condition and the overflow test are both true
on the vector left behind. -/
theorem factorial_exit (w : Nat) (Input : Int) :
    ∀ (m : Nat) (results : List Nat), size_t_cast Input + 1 - results.length = m →
      (size_t_cast Input < (factorial w Input results).2.length
        ∧ (factorial w Input results).1
            = if Input ≥ 0 then (factorial w Input results).2.getD Input.toNat 0 else 0)
      ∨ ((factorial w Input results).2.length ≤ size_t_cast Input
        ∧ (factorial w Input results).1 = 0
        ∧ overflow_check w (back (factorial w Input results).2)
            (output_cast w (factorial w Input results).2.length) = true) := by
  intro m
  induction m using Nat.strong_induction_on with
  | _ m ih =>
    intro results hm
    rw [factorial_eq_check]
    by_cases h : results.length ≤ size_t_cast Input
    · rw [if_pos h]
      by_cases hc : overflow_check w (back results) (output_cast w results.length) = true
      · rw [if_pos hc]
        exact Or.inr ⟨h, rfl, hc⟩
      · rw [if_neg hc]
        refine ih _ ?_ _ rfl
        simp only [List.length_append, List.length_singleton]
        omega
    · rw [if_neg h]
      exact Or.inl ⟨Nat.lt_of_not_le h, rfl⟩

/-! ## Absence of undefined behaviour -/

theorem table_not_isEmpty (k : Nat) :
    ((List.range (k + 1)).map Nat.factorial).isEmpty = false := by
  simp [List.range_succ]

theorem output_cast_of_le_21 (k : Nat) (h : k ≤ 21) : output_cast 64 k = k := by
  unfold output_cast
  exact Nat.mod_eq_of_lt (by omega)

/-- On the vector of the first `k + 1 ≤ 21` factorials the checked function
meets none of the undefined behaviours and agrees with `factorial`. -/
theorem factorial_checked_table (n : Int) (hn : isInt n) :
    ∀ (d k : Nat), k + 1 + d = 21 →
      factorial_checked 64 n ((List.range (k + 1)).map Nat.factorial)
        = some (factorial 64 n ((List.range (k + 1)).map Nat.factorial)) := by
  intro d
  induction d with
  | zero =>
    intro k hk
    obtain rfl : k = 20 := by omega
    rw [factorial_checked]
    by_cases h : 21 ≤ size_t_cast n
    · rw [factorial_table_overflow n h]
      simp only [table_length, ge_iff_le, h, if_true, table_not_isEmpty, table_back]
      rfl
    · have h0 : 0 ≤ n := by
        by_contra hneg
        have := size_t_cast_of_neg n (by omega) hn
        omega
      have hc := size_t_cast_of_nonneg n h0 hn
      rw [factorial_done 64 n _ (by rw [table_length]; omega)]
      simp only [table_length, ge_iff_le, h, if_false, h0, if_true]
      rw [if_pos (by omega)]
  | succ d ih =>
    intro k hk
    rw [factorial_checked]
    by_cases h : k + 1 ≤ size_t_cast n
    · have hov : overflow_check 64 (Nat.factorial k) (k + 1) = false := by
        rw [← Bool.not_eq_true, overflow_check_iff 64 _ _ (Nat.factorial_pos k)]
        have := factorial_lt_of_le_20 (k + 1) (by omega)
        rw [Nat.factorial_succ, Nat.mul_comm] at this
        omega
      have hnew : new_val 64 (Nat.factorial k) (k + 1) = Nat.factorial (k + 1) := by
        unfold new_val
        rw [Nat.mul_comm, ← Nat.factorial_succ]
        exact Nat.mod_eq_of_lt (factorial_lt_of_le_20 (k + 1) (by omega))
      simp only [table_length, ge_iff_le, h, if_true, table_not_isEmpty, table_back,
        output_cast_of_le_21 (k + 1) (by omega), hov, hnew, table_snoc,
        Nat.factorial_ne_zero, Bool.false_eq_true, if_false]
      rw [ih (k + 1) (by omega), factorial_table_push n k (by omega) h]
    · have h0 : 0 ≤ n := by
        by_contra hneg
        have := size_t_cast_of_neg n (by omega) hn
        omega
      have hc := size_t_cast_of_nonneg n h0 hn
      rw [factorial_done 64 n _ (by rw [table_length]; omega)]
      simp only [table_length, ge_iff_le, h, if_false, h0, if_true]
      rw [if_pos (by omega)]

/-- C12: in every reachable state the static vector is not empty and its last
entry is at least 1, so `new_val / results.back()` does not divide by zero; a
call with an `int` argument made in such a state meets no undefined behaviour at
any iteration (the checked function agrees with `factorial`); and when a call
with a non-negative `n` leaves the loop through its condition and so reaches
the final `return`, the index `n` is inside the vector. -/
theorem C12_extension_safe (results : List Nat) (hr : Reachable results)
    (n : Int) (hn : isInt n) :
    results ≠ [] ∧ 1 ≤ back results
      ∧ factorial_checked 64 n results = some (factorial 64 n results)
      ∧ (0 ≤ n → size_t_cast n < (factorial 64 n results).2.length →
          n.toNat < (factorial 64 n results).2.length) := by
  obtain ⟨k, h2, h21, rfl⟩ := reachable_table results hr
  obtain ⟨k, rfl⟩ : ∃ j, k = j + 1 := ⟨k - 1, by omega⟩
  refine ⟨?_, ?_, factorial_checked_table n hn (20 - k) k (by omega), ?_⟩
  · intro e
    have := table_not_isEmpty k
    rw [e] at this
    exact absurd this (by decide)
  · rw [table_back]
    exact Nat.factorial_pos k
  · intro h0 hlt
    rw [← size_t_cast_of_nonneg n h0 hn]
    exact hlt

theorem C12_extension_safe_witness :
    Reachable (factorial 64 4 [1, 1]).2 ∧ isInt 9
      ∧ (factorial 64 4 [1, 1]).2 ≠ [] ∧ 1 ≤ back (factorial 64 4 [1, 1]).2
      ∧ factorial_checked 64 9 (factorial 64 4 [1, 1]).2
          = some (factorial 64 9 (factorial 64 4 [1, 1]).2)
      ∧ ((0 : Int) ≤ 9 →
          size_t_cast 9 < (factorial 64 9 (factorial 64 4 [1, 1]).2).2.length →
          (9 : Int).toNat < (factorial 64 9 (factorial 64 4 [1, 1]).2).2.length) :=
  ⟨Reachable.call _ _ Reachable.seed (by decide), by decide,
    C12_extension_safe _ (Reachable.call _ _ Reachable.seed (by decide)) 9 (by decide)⟩

/-! ## The length of the vector after a call -/

/-- The length of the static vector after a call with a non-negative `int` made
in a reachable state. -/
theorem factorial_length_of_nonneg (results : List Nat) (hr : Reachable results)
    (n : Int) (hn : isInt n) (h0 : 0 ≤ n) :
    (factorial 64 n results).2.length = max results.length (min (n.toNat + 1) 21) := by
  obtain ⟨k, h2, h21, rfl⟩ := reachable_table results hr
  rw [factorial_table n hn k h2 h21]
  by_cases h : 0 ≤ n ∧ n ≤ 20
  · rw [if_pos h]
    simp only [table_length]
    omega
  · rw [if_neg h]
    simp only [table_length]
    omega

/-- For a non-negative `int` `n` the number of entries a call appends in a
reachable state of length `s` is at most `max(0, n + 1 - s)`. -/
theorem factorial_work_bound_of_nonneg (results : List Nat) (hr : Reachable results)
    (n : Int) (hn : isInt n) (h0 : 0 ≤ n) :
    ((factorial 64 n results).2.length : Int) - (results.length : Int)
      ≤ max 0 (n + 1 - (results.length : Int)) := by
  rw [factorial_length_of_nonneg results hr n hn h0]
  omega

/-- C13, evaluated on the code: called with `-1` on the seeded vector `[1, 1]`
(length `s = 2`), the extension loop terminates but appends 19 entries, more
than the bound `max(0, n + 1 - s) = 0`. -/
theorem C13_negative_input_exceeds_bound :
    ((factorial 64 (-1) [1, 1]).2.length : Int) - (([1, 1] : List Nat).length : Int) = 19
      ∧ max 0 ((-1 : Int) + 1 - (([1, 1] : List Nat).length : Int)) = 0
      ∧ ¬ (((factorial 64 (-1) [1, 1]).2.length : Int) - (([1, 1] : List Nat).length : Int)
            ≤ max 0 ((-1 : Int) + 1 - (([1, 1] : List Nat).length : Int))) := by
  have e : ([1, 1] : List Nat) = (List.range 2).map Nat.factorial := by decide
  have h : (factorial 64 (-1) [1, 1]).2 = (List.range 21).map Nat.factorial := by
    rw [e, factorial_table (-1) (by decide) 2 (by omega) (by omega), if_neg (by decide)]
  rw [h, table_length]
  decide

/-- C14: for every non-negative `int` `n` and every reachable state of length
`s`, after `factorial(n)` the static vector has exactly `max(s, min(n + 1, 21))`
entries: a successful call on an index not yet covered leaves exactly `n + 1`
entries, a call on a covered index leaves the vector as it is, and an
overflowing call returns 0 and leaves `20!` as the last of 21 entries. -/
theorem C14_minimal_extension (results : List Nat) (hr : Reachable results)
    (n : Int) (hn : isInt n) (h0 : 0 ≤ n) :
    (factorial 64 n results).2.length = max results.length (min (n.toNat + 1) 21)
      ∧ (n ≤ 20 → results.length ≤ n.toNat →
          (factorial 64 n results).2.length = n.toNat + 1)
      ∧ (n.toNat < results.length → (factorial 64 n results).2 = results)
      ∧ (21 ≤ n → (factorial 64 n results).1 = 0
          ∧ (factorial 64 n results).2.length = 21
          ∧ back (factorial 64 n results).2 = 2432902008176640000) := by
  have hlen := factorial_length_of_nonneg results hr n hn h0
  refine ⟨hlen, ?_, ?_, ?_⟩
  · intro h20 hs
    rw [hlen]
    omega
  · intro hs
    have hc := size_t_cast_of_nonneg n h0 hn
    rw [factorial_done 64 n results (by omega)]
  · intro h21
    obtain ⟨k, h2, hk21, rfl⟩ := reachable_table results hr
    rw [factorial_table n hn k h2 hk21, if_neg (by omega)]
    refine ⟨rfl, table_length 21, ?_⟩
    show back ((List.range (20 + 1)).map Nat.factorial) = _
    rw [table_back]
    decide

theorem C14_minimal_extension_witness :
    Reachable (factorial 64 5 [1, 1]).2 ∧ isInt 12 ∧ (0 : Int) ≤ 12
      ∧ (factorial 64 12 (factorial 64 5 [1, 1]).2).2.length
          = max (factorial 64 5 [1, 1]).2.length (min ((12 : Int).toNat + 1) 21)
      ∧ ((12 : Int) ≤ 20 → (factorial 64 5 [1, 1]).2.length ≤ (12 : Int).toNat →
          (factorial 64 12 (factorial 64 5 [1, 1]).2).2.length = (12 : Int).toNat + 1)
      ∧ ((12 : Int).toNat < (factorial 64 5 [1, 1]).2.length →
          (factorial 64 12 (factorial 64 5 [1, 1]).2).2 = (factorial 64 5 [1, 1]).2)
      ∧ ((21 : Int) ≤ 12 → (factorial 64 12 (factorial 64 5 [1, 1]).2).1 = 0
          ∧ (factorial 64 12 (factorial 64 5 [1, 1]).2).2.length = 21
          ∧ back (factorial 64 12 (factorial 64 5 [1, 1]).2).2 = 2432902008176640000) :=
  ⟨Reachable.call _ _ Reachable.seed (by decide), by decide, by decide,
    C14_minimal_extension _ (Reachable.call _ _ Reachable.seed (by decide)) 12
      (by decide) (by decide)⟩

/-- C15: for `n = 0` and `n = 1` and every reachable state of the static vector,
the loop condition `( size_t ) n >= results.size()` is false on entry, so the
extension loop makes no iteration, and `factorial(n)` returns 1 and leaves the
vector unchanged. -/
theorem C15_seed_edge_cases (results : List Nat) (hr : Reachable results) :
    ¬ (size_t_cast 0 ≥ results.length) ∧ ¬ (size_t_cast 1 ≥ results.length)
      ∧ factorial 64 0 results = (1, results)
      ∧ factorial 64 1 results = (1, results) := by
  obtain ⟨k, h2, h21, rfl⟩ := reachable_table results hr
  have c0 : size_t_cast 0 = 0 := by decide
  have c1 : size_t_cast 1 = 1 := by decide
  refine ⟨by rw [c0, table_length]; omega, by rw [c1, table_length]; omega, ?_, ?_⟩
  · rw [factorial_done 64 0 _ (by rw [c0, table_length]; omega), if_pos (by decide)]
    show (((List.range k).map Nat.factorial).getD 0 0, _) = _
    rw [table_getD k 0 (by omega)]
    rfl
  · rw [factorial_done 64 1 _ (by rw [c1, table_length]; omega), if_pos (by decide)]
    show (((List.range k).map Nat.factorial).getD 1 0, _) = _
    rw [table_getD k 1 (by omega)]
    rfl

theorem C15_seed_edge_cases_witness :
    Reachable [1, 1]
      ∧ ¬ (size_t_cast 0 ≥ ([1, 1] : List Nat).length)
      ∧ ¬ (size_t_cast 1 ≥ ([1, 1] : List Nat).length)
      ∧ factorial 64 0 [1, 1] = (1, [1, 1])
      ∧ factorial 64 1 [1, 1] = (1, [1, 1]) :=
  ⟨Reachable.seed, C15_seed_edge_cases [1, 1] Reachable.seed⟩

/-- C16: with `int` input and 64-bit unsigned output, for every negative `n` and
every reachable state of the static vector, the loop condition
`( size_t ) n >= results.size()` is true on entry; the call returns 0 and leaves
exactly the 21 entries `0!`, ..., `20!`; on that last vector the loop condition
is still true and the overflow test is true, so the call ends at the `return 0`
of the loop body and the final `return` with its negative-input branch is not
reached. -/
theorem C16_negative_ends_in_overflow_branch (results : List Nat)
    (hr : Reachable results) (n : Int) (hn : isInt n) (hneg : n < 0) :
    size_t_cast n ≥ results.length
      ∧ factorial 64 n results = (0, (List.range 21).map Nat.factorial)
      ∧ size_t_cast n ≥ (factorial 64 n results).2.length
      ∧ overflow_check 64 (back (factorial 64 n results).2)
          (output_cast 64 (factorial 64 n results).2.length) = true := by
  have hc := size_t_cast_of_neg n hneg hn
  obtain ⟨k, h2, h21, rfl⟩ := reachable_table results hr
  rw [factorial_table n hn k h2 h21, if_neg (by omega)]
  refine ⟨?_, rfl, ?_, ?_⟩
  · rw [table_length]
    exact le_trans h21 (le_trans (by norm_num) hc)
  · show (List.map Nat.factorial (List.range 21)).length ≤ size_t_cast n
    rw [table_length]
    exact le_trans (by norm_num) hc
  · show overflow_check 64 (back ((List.range (20 + 1)).map Nat.factorial))
      (output_cast 64 ((List.range 21).map Nat.factorial).length) = true
    rw [table_back, table_length]
    decide

theorem C16_negative_ends_in_overflow_branch_witness :
    Reachable [1, 1] ∧ isInt (-1) ∧ (-1 : Int) < 0
      ∧ size_t_cast (-1) ≥ ([1, 1] : List Nat).length
      ∧ factorial 64 (-1) [1, 1] = (0, (List.range 21).map Nat.factorial)
      ∧ size_t_cast (-1) ≥ (factorial 64 (-1) [1, 1]).2.length
      ∧ overflow_check 64 (back (factorial 64 (-1) [1, 1]).2)
          (output_cast 64 (factorial 64 (-1) [1, 1]).2.length) = true :=
  ⟨Reachable.seed, by decide, by decide,
    C16_negative_ends_in_overflow_branch [1, 1] Reachable.seed (-1) (by decide)
      (by decide)⟩

/-- C17: with a 64-bit unsigned output, in every state reachable from the seed
`[1, 1]` the static vector has between 2 and 21 entries: there is no entry at
index 21 or beyond. -/
theorem C17_cache_length_bounds (results : List Nat) (hr : Reachable results) :
    2 ≤ results.length ∧ results.length ≤ 21
      ∧ ∀ i : Nat, 21 ≤ i → results[i]? = none := by
  obtain ⟨k, h2, h21, rfl⟩ := reachable_table results hr
  rw [table_length]
  refine ⟨h2, h21, ?_⟩
  intro i hi
  rw [List.getElem?_eq_none_iff, table_length]
  omega

theorem C17_cache_length_bounds_witness :
    Reachable (factorial 64 (-5) [1, 1]).2
      ∧ 2 ≤ (factorial 64 (-5) [1, 1]).2.length
      ∧ (factorial 64 (-5) [1, 1]).2.length ≤ 21
      ∧ ∀ i : Nat, 21 ≤ i → (factorial 64 (-5) [1, 1]).2[i]? = none :=
  ⟨Reachable.call _ _ Reachable.seed (by decide),
    C17_cache_length_bounds _ (Reachable.call _ _ Reachable.seed (by decide))⟩

end BetterFactorial
